import Mathlib

/-!
Verification of the vite-plugin-compression pipeline (src/index.ts).

A shallow embedding of the post-build compression pipeline:
option resolution with defaults, the per-file worker of `closeBundle`
(stat → freshness/threshold skip → read → optional delete-original →
codec call with catch → write → mtime-cache update), the codec-option
resolver `getCompressionOptions`, the output-name builder
`getOutputFileName`, and the percentage computation of
`handleOutputLogger`.  Side effects are made explicit as an event trace;
JS `Map` becomes an association list, JS number division is modelled
with an explicit non-finite case.
-/

namespace VPC

/-- One observable side effect of the per-file worker, in program order:
`fs.stat`, `fs.readFile`, `fs.remove`, the `zlib[algorithm]` call,
`config.logger.error`, `fs.writeFile`, `mtimeCache.set`. -/
inductive Event where
  | statF (path : String)
  | readF (path : String)
  | removeF (path : String)
  | compressCall (path : String)
  | logError (msg : String)
  | writeF (path : String) (content : List Nat)
  | cacheUpd (path : String) (time : Nat)
  deriving DecidableEq

/-- A file of the output directory as the worker observes it:
`fs.stat` yields `mtimeMs` and `size`; `fs.readFile` yields `content`
(bytes, modelled as a list of naturals). -/
structure FileInfo where
  path : String
  mtimeMs : Nat
  size : Nat
  content : List Nat
  deriving DecidableEq

/-- The options object passed to the plugin factory: each field may be
present or omitted (JS destructuring defaults fill the omitted ones). -/
structure UserOptions where
  verbose : Option Bool
  threshold : Option Nat
  ext : Option String
  algorithm : Option String
  deleteOriginFile : Option Bool
  deriving DecidableEq

/-- The options after the factory's destructuring defaults and the two
`if (algorithm === ... && !ext)` rewrites of `ext` ran. -/
structure Config where
  verbose : Bool
  threshold : Nat
  ext : String
  algorithm : String
  deleteOriginFile : Bool
  deriving DecidableEq

/-- Option resolution of the plugin factory (src/index.ts lines 264-284):
`verbose = true`, `threshold = 1025`, `ext = ''`, `algorithm = 'gzip'`,
`deleteOriginFile = false` as defaults, then `ext` is rewritten to
`'.gz'` when the algorithm is gzip and `ext` is empty, and to `'.br'`
when the algorithm is brotliCompress and `ext` is empty. -/
def resolveConfig (o : UserOptions) : Config :=
  let verbose := o.verbose.getD true
  let threshold := o.threshold.getD 1025
  let ext0 := o.ext.getD ""
  let algorithm := o.algorithm.getD "gzip"
  let ext1 := if algorithm = "gzip" ∧ ext0 = "" then ".gz" else ext0
  let ext2 := if algorithm = "brotliCompress" ∧ ext1 = "" then ".br" else ext1
  ⟨verbose, threshold, ext2, algorithm, o.deleteOriginFile.getD false⟩

/-- JS `String.prototype.startsWith` at argument position 0: the search
string is a prefix of the receiver's code units. -/
def jsStartsWith (s pre : String) : Bool :=
  pre.data.isPrefixOf s.data

/-- `getOutputFileName` (src/index.ts lines 438-441): prepend a dot to
the extension unless it already starts with one, and append the result
to the file path. -/
def getOutputFileName (filepath ext : String) : String :=
  let compressExt := if jsStartsWith ext "." = true then ext else "." ++ ext
  filepath ++ compressExt

/-- The process-wide `mtimeCache : Map<string, number>`, as an
association list where `set` prepends and `get` takes the first hit. -/
abbrev MtimeCache := List (String × Nat)

/-- `mtimeCache.get(path)`. -/
def cacheGet (c : MtimeCache) (k : String) : Option Nat :=
  (c.find? (fun p => p.1 == k)).map (fun p => p.2)

/-- `mtimeCache.get(path) || 0`: a missing entry reads as 0 (and a 0
entry stays 0, so `getD 0` is exact). -/
def cacheGetD (c : MtimeCache) (k : String) : Nat :=
  (cacheGet c k).getD 0

/-- `mtimeCache.set(path, time)`. -/
def cacheSet (c : MtimeCache) (k : String) (v : Nat) : MtimeCache :=
  (k, v) :: c

/-- One value of a codec-options object: a numeric option such as
`level`, or the nested numeric-keyed `params` object of brotli. -/
inductive OptVal where
  | num (n : Int)
  | params (l : List (Nat × Int))
  deriving DecidableEq

/-- A codec-options object: key-value pairs, first hit wins on lookup. -/
abbrev OptMap := List (String × OptVal)

/-- Property lookup on an options object. -/
def optLookup (m : OptMap) (k : String) : Option OptVal :=
  (m.find? (fun p => p.1 == k)).map (fun p => p.2)

/-- The JS object spread `{...base, ...user}` observed through property
lookup: keys of `base` survive unless `user` redefines them, and all of
`user`'s keys are present with `user`'s values. -/
def shallowMerge (base user : OptMap) : OptMap :=
  (base.filter (fun p => (optLookup user p.1).isNone)) ++ user

/-- `zlib.constants.Z_BEST_COMPRESSION`. -/
def zBestCompression : Int := 9
/-- `zlib.constants.BROTLI_PARAM_QUALITY`. -/
def brotliParamQuality : Nat := 1
/-- `zlib.constants.BROTLI_MAX_QUALITY`. -/
def brotliMaxQuality : Int := 11
/-- `zlib.constants.BROTLI_PARAM_MODE`. -/
def brotliParamMode : Nat := 0
/-- `zlib.constants.BROTLI_MODE_TEXT`. -/
def brotliModeText : Int := 1

/-- The `defaultOptions` table of `getCompressionOptions`
(src/index.ts lines 388-407): maximum-compression baselines for the
four known algorithms; any other key reads as absent (`undefined`). -/
def defaultOptions (algorithm : String) : OptMap :=
  if algorithm = "gzip" then [("level", OptVal.num zBestCompression)]
  else if algorithm = "deflate" then [("level", OptVal.num zBestCompression)]
  else if algorithm = "deflateRaw" then [("level", OptVal.num zBestCompression)]
  else if algorithm = "brotliCompress" then
    [("params", OptVal.params
        [(brotliParamQuality, brotliMaxQuality),
         (brotliParamMode, brotliModeText)])]
  else []

/-- `getCompressionOptions` (src/index.ts lines 384-412):
`{...defaultOptions[algorithm], ...compressionOptions}`. -/
def getCompressionOptions (algorithm : String) (compressionOptions : OptMap) :
    OptMap :=
  shallowMerge (defaultOptions algorithm) compressionOptions

/-- What the worker stores in `compressMap` for one file
(src/index.ts lines 340-344): `size` (byte length after the try/catch),
`oldSize` (from stat) and the output name `cname`. -/
structure CompressEntry where
  size : Nat
  oldSize : Nat
  cname : String
  deriving DecidableEq

/-- One worker's outcome: its event trace, the mtime cache it leaves
behind, and its `compressMap` entry when it set one. -/
structure WorkerOut where
  events : List Event
  cache : MtimeCache
  entry : Option (String × CompressEntry)
  deriving DecidableEq

/-- The per-file worker of `closeBundle` (src/index.ts lines 321-348).
`fn` is the codec `content ↦ compress(content, algorithm,
compressOptions)`: `some` on success, `none` when the codec's callback
reports an error.  `now` is `Date.now()`.  The code: stat; return early
when `mtimeMs <= (mtimeCache.get(filePath) || 0) || oldSize < threshold`;
read; `fs.remove` when `deleteOriginFile`; try the codec, on catch log
`'compress error:' + filePath` and keep the original `content`; then
set `compressMap`, write `content` to the output name, and set
`mtimeCache`. -/
def processFile (cfg : Config) (fn : List Nat → Option (List Nat)) (now : Nat)
    (cache : MtimeCache) (f : FileInfo) : WorkerOut :=
  if f.mtimeMs ≤ cacheGetD cache f.path ∨ f.size < cfg.threshold then
    ⟨[Event.statF f.path], cache, none⟩
  else
    let pre := [Event.statF f.path, Event.readF f.path] ++
      (if cfg.deleteOriginFile then [Event.removeF f.path] else [])
    let cname := getOutputFileName f.path cfg.ext
    match fn f.content with
    | some compressed =>
        ⟨pre ++ [Event.compressCall f.path,
                 Event.writeF cname compressed,
                 Event.cacheUpd f.path now],
         cacheSet cache f.path now,
         some (f.path, ⟨compressed.length, f.size, cname⟩)⟩
    | none =>
        ⟨pre ++ [Event.compressCall f.path,
                 Event.logError ("compress error:" ++ f.path),
                 Event.writeF cname f.content,
                 Event.cacheUpd f.path now],
         cacheSet cache f.path now,
         some (f.path, ⟨f.content.length, f.size, cname⟩)⟩

/-- The joined outcome of all workers of one run. -/
structure RunState where
  events : List Event
  cache : MtimeCache
  compressMap : List (String × CompressEntry)
  deriving DecidableEq

/-- All workers of one `closeBundle` run over the filtered file list.
The workers are independent (each file path is visited by exactly one
worker and each only touches its own cache key), so the join of the
concurrent workers is modelled as a left-to-right fold. -/
def runFiles (cfg : Config) (fn : List Nat → Option (List Nat)) (now : Nat) :
    MtimeCache → List FileInfo → RunState
  | cache, [] => ⟨[], cache, []⟩
  | cache, f :: fs =>
    let out := processFile cfg fn now cache f
    let rest := runFiles cfg fn now out.cache fs
    ⟨out.events ++ rest.events, rest.cache,
     (match out.entry with
      | some e => [e]
      | none => []) ++ rest.compressMap⟩

/-- A JS number as the report arithmetic needs it: finite (exact
rational), one of the two infinities, or NaN. -/
inductive JSNum where
  | fin (q : ℚ)
  | posInf
  | negInf
  | nan
  deriving DecidableEq

/-- JS division of two finite numbers: `a / 0` is `Infinity`,
`-Infinity` or `NaN` depending on the sign of `a`; otherwise exact. -/
def jsDiv (a b : ℚ) : JSNum :=
  if b = 0 then
    if a = 0 then JSNum.nan
    else if 0 < a then JSNum.posInf
    else JSNum.negInf
  else JSNum.fin (a / b)

/-- One row of the report of `handleOutputLogger`
(src/index.ts lines 477-502): the output name, the two sizes divided by
the `bytesDivider` 1000, and `(100 * size) / oldSize`. -/
structure ReportRow where
  name : String
  oldSizeKB : ℚ
  newSizeKB : ℚ
  percentage : JSNum
  deriving DecidableEq

/-- The `compressMapArray` computation of `handleOutputLogger`: one row
per `compressMap` entry, in map order. -/
def reportRows (m : List (String × CompressEntry)) : List ReportRow :=
  m.map fun pe =>
    ⟨pe.2.cname, (pe.2.oldSize : ℚ) / 1000, (pe.2.size : ℚ) / 1000,
     jsDiv (100 * (pe.2.size : ℚ)) (pe.2.oldSize : ℚ)⟩

/-- The end of `closeBundle` (src/index.ts lines 350-356): after the
`Promise.all` barrier, render the report and call `success()` only when
`verbose` is set. -/
structure BundleOut where
  state : RunState
  reported : List ReportRow
  successCalled : Bool
  deriving DecidableEq

/-- `closeBundle` after filtering: run every worker, then
`if (verbose) { handleOutputLogger(...); success() }`. -/
def closeBundle (cfg : Config) (fn : List Nat → Option (List Nat)) (now : Nat)
    (cache : MtimeCache) (files : List FileInfo) : BundleOut :=
  let st := runFiles cfg fn now cache files
  if cfg.verbose then ⟨st, reportRows st.compressMap, true⟩
  else ⟨st, [], false⟩

/-- The `fs.readFile` calls of a trace. -/
def readsOf (evs : List Event) : List String :=
  evs.filterMap fun e =>
    match e with
    | Event.readF p => some p
    | _ => none

/-- The codec calls of a trace. -/
def compressCallsOf (evs : List Event) : List String :=
  evs.filterMap fun e =>
    match e with
    | Event.compressCall p => some p
    | _ => none

/-- The `fs.writeFile` calls of a trace, with the written bytes. -/
def writesOf (evs : List Event) : List (String × List Nat) :=
  evs.filterMap fun e =>
    match e with
    | Event.writeF p c => some (p, c)
    | _ => none

/-- The `logger.error` lines of a trace. -/
def errorsOf (evs : List Event) : List String :=
  evs.filterMap fun e =>
    match e with
    | Event.logError m => some m
    | _ => none

/-- The `mtimeCache.set` calls of a trace. -/
def cacheUpdatesOf (evs : List Event) : List (String × Nat) :=
  evs.filterMap fun e =>
    match e with
    | Event.cacheUpd p t => some (p, t)
    | _ => none

/-- The `fs.remove` calls of a trace. -/
def removesOf (evs : List Event) : List String :=
  evs.filterMap fun e =>
    match e with
    | Event.removeF p => some p
    | _ => none

/-- The empty options object `{}`. -/
def uoEmpty : UserOptions := ⟨none, none, none, none, none⟩

/-- The configuration of `viteCompression()` with no options: verbose,
threshold 1025, ext `.gz`, algorithm gzip, keep originals. -/
def cfgDefault : Config := resolveConfig uoEmpty

/-- A codec that always fails (its callback reports an error). -/
def fnFail : List Nat → Option (List Nat) := fun _ => none

/-- A codec that always succeeds, producing the single byte 9. -/
def fnOne : List Nat → Option (List Nat) := fun _ => some [9]

/-- A 2000-byte `dist/a.js` with mtime 3, three bytes in the model. -/
def bigFile : FileInfo := ⟨"dist/a.js", 3, 2000, [1, 2, 3]⟩

/-- Options with `verbose: false` only. -/
def uoNoVerbose : UserOptions := ⟨some false, none, none, none, none⟩

/-- Options with `threshold: 0` only. -/
def uoThr0 : UserOptions := ⟨none, some 0, none, none, none⟩

/-- Options with `algorithm: 'deflate'` only. -/
def uoDeflate : UserOptions := ⟨none, none, none, some "deflate", none⟩

/-- Options with `algorithm: 'deflateRaw'` only. -/
def uoDeflateRaw : UserOptions := ⟨none, none, none, some "deflateRaw", none⟩

/-- Options with `deleteOriginFile: true` only. -/
def uoDel : UserOptions := ⟨none, none, none, none, some true⟩

/-- C1: evaluation of the worker at a failing codec call, against the
claim "on codec failure: report an error, write no output file, do not
update the FreshnessCache, so an unchanged file is attempted again next
run".  The code does log `compress error:` for the file (and sibling
workers are independent), but the catch block then falls through: the
ORIGINAL, uncompressed bytes are written to the `.gz` output name, the
entry still lands in `compressMap`, `mtimeCache` is updated, and a
second run with the same mtime therefore skips the file instead of
retrying it. -/
theorem codec_failure_still_writes_and_caches :
    errorsOf (processFile cfgDefault fnFail 5 [] bigFile).events =
      ["compress error:dist/a.js"] ∧
    writesOf (processFile cfgDefault fnFail 5 [] bigFile).events =
      [("dist/a.js.gz", [1, 2, 3])] ∧
    (processFile cfgDefault fnFail 5 [] bigFile).entry =
      some ("dist/a.js", ⟨3, 2000, "dist/a.js.gz"⟩) ∧
    (processFile cfgDefault fnFail 5 [] bigFile).cache = [("dist/a.js", 5)] ∧
    (processFile cfgDefault fnFail 9
        (processFile cfgDefault fnFail 5 [] bigFile).cache bigFile).events =
      [Event.statF "dist/a.js"] := by
  decide

/-- C2 (counterexample): with `verbose: false` the run still computes
its per-file `compressMap` data, yet `success()` is NOT invoked — the
call sits inside `if (verbose)` (src/index.ts lines 350-356), refuting
"the caller-supplied completion callback is still invoked". -/
theorem verbose_off_success_not_called :
    (closeBundle (resolveConfig uoNoVerbose) fnOne 5 [] [bigFile]).successCalled
      = false ∧
    (closeBundle (resolveConfig uoNoVerbose) fnOne 5 [] [bigFile]).state.compressMap
      ≠ [] := by
  decide

/-- C2 (amended): with verbose disabled no report is rendered and the
per-file result data is still fully computed (the run is independent of
the verbosity flag), but the `success` callback is not invoked either:
it runs exactly when `verbose` is set. -/
theorem verbose_gates_report_and_callback :
    (∀ (v₁ v₂ : Bool) (thr : Nat) (ext alg : String) (del : Bool) fn now cache
        files,
      runFiles ⟨v₁, thr, ext, alg, del⟩ fn now cache files =
        runFiles ⟨v₂, thr, ext, alg, del⟩ fn now cache files) ∧
    (∀ cfg fn now cache files,
      (closeBundle cfg fn now cache files).state =
        runFiles cfg fn now cache files) ∧
    (∀ cfg fn now cache files, cfg.verbose = false →
      (closeBundle cfg fn now cache files).reported = [] ∧
      (closeBundle cfg fn now cache files).successCalled = false) ∧
    (∀ cfg fn now cache files, cfg.verbose = true →
      (closeBundle cfg fn now cache files).successCalled = true) := by
  refine ⟨?_, ?_, ?_, ?_⟩
  · intro v₁ v₂ thr ext alg del fn now cache files
    induction files generalizing cache with
    | nil => rfl
    | cons f fs ih =>
      show RunState.mk _ _ _ = RunState.mk _ _ _
      rw [show processFile ⟨v₁, thr, ext, alg, del⟩ fn now cache f =
            processFile ⟨v₂, thr, ext, alg, del⟩ fn now cache f from rfl, ih]
  · intro cfg fn now cache files
    unfold closeBundle
    split <;> rfl
  · intro cfg fn now cache files h
    simp [closeBundle, h]
  · intro cfg fn now cache files h
    simp [closeBundle, h]

/-- C4 (counterexample): with the threshold option omitted, a fresh
1024-byte file that passes the filter is nevertheless skipped — nothing
is written and no result entry is produced — because the omitted
threshold defaults to 1025, refuting "an unset threshold option results
in no size-based exclusion". -/
theorem unset_threshold_still_excludes_small_file :
    writesOf (closeBundle (resolveConfig uoEmpty) fnOne 5 []
        [⟨"dist/a.js", 3, 1024, []⟩]).state.events = [] ∧
    (closeBundle (resolveConfig uoEmpty) fnOne 5 []
        [⟨"dist/a.js", 3, 1024, []⟩]).state.compressMap = [] := by
  decide

/-- C4 (amended): a threshold of 0 indeed disables size-based
exclusion (a worker then skips exactly the mtime-stale files), but an
omitted threshold option defaults to 1025, so files strictly below 1025
bytes are excluded by default. -/
theorem threshold_zero_no_size_exclusion :
    (∀ cfg fn now cache f, cfg.threshold = 0 →
      ((processFile cfg fn now cache f).entry = none ↔
        f.mtimeMs ≤ cacheGetD cache f.path)) ∧
    (∀ uo : UserOptions, uo.threshold = none →
      (resolveConfig uo).threshold = 1025) := by
  constructor
  · intro cfg fn now cache f h
    by_cases hm : f.mtimeMs ≤ cacheGetD cache f.path
    · simp [processFile, hm]
    · have hcond : ¬(f.mtimeMs ≤ cacheGetD cache f.path ∨ f.size < cfg.threshold) := by
        rw [h]
        simp [hm]
      simp only [processFile, if_neg hcond]
      cases fn f.content <;> simp [hm]
  · intro uo h
    simp [resolveConfig, h]

/-- C10: with algorithm deflate or deflateRaw and no `ext` option, the
effective extension stays the empty string (only gzip and
brotliCompress rewrite an empty `ext`), and `getOutputFileName` turns
it into a lone `'.'`, so every output path is the source path followed
by a single trailing dot. -/
theorem deflate_default_ext_trailing_dot :
    (∀ uo : UserOptions, uo.ext = none →
      (uo.algorithm = some "deflate" ∨ uo.algorithm = some "deflateRaw") →
      (resolveConfig uo).ext = "") ∧
    (∀ p, getOutputFileName p "" = p ++ ".") ∧
    (∀ p, getOutputFileName p (resolveConfig uoDeflate).ext = p ++ ".") ∧
    (∀ p, getOutputFileName p (resolveConfig uoDeflateRaw).ext = p ++ ".") := by
  refine ⟨?_, ?_, ?_, ?_⟩
  · intro uo hext halg
    rcases halg with h | h <;> simp [resolveConfig, hext, h]
  · intro p
    rfl
  · intro p
    rfl
  · intro p
    rfl

/-- C3: a worker skips a file — no read, no codec call, no write, no
cache change, no result entry — exactly when the file's mtime is at
most the recorded timestamp for its path (0 when absent) or its size is
strictly below the threshold (src/index.ts lines 321-325); at the
default threshold 1025 a 1025-byte file is processed and a 1024-byte
file is skipped. -/
theorem skip_iff_stale_or_small :
    (∀ cfg fn now cache f,
      (readsOf (processFile cfg fn now cache f).events = [] ∧
       compressCallsOf (processFile cfg fn now cache f).events = [] ∧
       writesOf (processFile cfg fn now cache f).events = [] ∧
       (processFile cfg fn now cache f).cache = cache ∧
       (processFile cfg fn now cache f).entry = none) ↔
      (f.mtimeMs ≤ cacheGetD cache f.path ∨ f.size < cfg.threshold)) ∧
    writesOf (processFile cfgDefault fnOne 50 []
        ⟨"dist/a.js", 10, 1025, []⟩).events ≠ [] ∧
    writesOf (processFile cfgDefault fnOne 50 []
        ⟨"dist/a.js", 10, 1024, []⟩).events = [] := by
  refine ⟨?_, by decide, by decide⟩
  intro cfg fn now cache f
  by_cases h : f.mtimeMs ≤ cacheGetD cache f.path ∨ f.size < cfg.threshold
  · simp [processFile, h, readsOf, compressCallsOf, writesOf]
  · simp only [processFile, if_neg h]
    cases hfn : fn f.content <;>
      cases hdel : cfg.deleteOriginFile <;>
        simp [readsOf, compressCallsOf, writesOf, h, hdel]

/-- C6: with `deleteOriginFile` configured, a processed file's trace
begins `stat, read, remove, codec call` — the original is removed
strictly after its bytes were read and strictly before the codec runs,
for every codec outcome (so also when it fails), and no further
`fs.remove` occurs later (in particular none in reaction to the
write). -/
theorem delete_original_before_codec (cfg : Config)
    (fn : List Nat → Option (List Nat)) (now : Nat) (cache : MtimeCache)
    (f : FileInfo) (hdel : cfg.deleteOriginFile = true)
    (hrun : ¬(f.mtimeMs ≤ cacheGetD cache f.path ∨ f.size < cfg.threshold)) :
    ∃ rest, (processFile cfg fn now cache f).events =
      Event.statF f.path :: Event.readF f.path :: Event.removeF f.path ::
        Event.compressCall f.path :: rest ∧
      removesOf rest = [] := by
  simp only [processFile, if_neg hrun]
  cases hfn : fn f.content with
  | none =>
      refine ⟨[Event.logError ("compress error:" ++ f.path),
               Event.writeF (getOutputFileName f.path cfg.ext) f.content,
               Event.cacheUpd f.path now], ?_, by simp [removesOf]⟩
      simp [hdel]
  | some compressed =>
      refine ⟨[Event.writeF (getOutputFileName f.path cfg.ext) compressed,
               Event.cacheUpd f.path now], ?_, by simp [removesOf]⟩
      simp [hdel]

/-- Witness for C6: the 2000-byte `dist/a.js` under
`deleteOriginFile: true` with a failing codec — the remove sits between
the read and the codec call even though compression fails. -/
theorem delete_original_before_codec_witness :
    (resolveConfig uoDel).deleteOriginFile = true ∧
    ¬(bigFile.mtimeMs ≤ cacheGetD [] bigFile.path ∨
        bigFile.size < (resolveConfig uoDel).threshold) ∧
    (∃ rest, (processFile (resolveConfig uoDel) fnFail 5 [] bigFile).events =
      Event.statF bigFile.path :: Event.readF bigFile.path ::
        Event.removeF bigFile.path :: Event.compressCall bigFile.path :: rest ∧
      removesOf rest = []) :=
  ⟨by decide, by decide,
    delete_original_before_codec (resolveConfig uoDel) fnFail 5 [] bigFile
      (by decide) (by decide)⟩

/-- Options `{ algorithm: 'gzip', ext: 'zz' }`. -/
def uoGzipZZ : UserOptions := ⟨none, none, some "zz", some "gzip", none⟩

/-- C7: the output path is always the source path plus a normalized
extension that starts with `'.'`, the dot being added exactly when the
configured extension lacks one; gzip with no explicit extension
resolves to `.gz`, brotliCompress to `.br`, and gzip with explicit
extension `zz` maps `foo.js` to `foo.js.zz`. -/
theorem output_name_extension :
    (∀ p e, ∃ ne, getOutputFileName p e = p ++ ne ∧
      jsStartsWith ne "." = true ∧
      (jsStartsWith e "." = true → ne = e) ∧
      (jsStartsWith e "." = false → ne = "." ++ e)) ∧
    (∀ uo : UserOptions,
      (uo.algorithm = some "gzip" ∨ uo.algorithm = none) → uo.ext = none →
      (resolveConfig uo).ext = ".gz") ∧
    (∀ uo : UserOptions, uo.algorithm = some "brotliCompress" →
      uo.ext = none → (resolveConfig uo).ext = ".br") ∧
    (resolveConfig uoGzipZZ).ext = "zz" ∧
    getOutputFileName "foo.js" (resolveConfig uoGzipZZ).ext = "foo.js.zz" := by
  refine ⟨?_, ?_, ?_, by decide, by decide⟩
  · intro p e
    by_cases h : jsStartsWith e "." = true
    · refine ⟨e, by simp [getOutputFileName, h], h, fun _ => rfl, ?_⟩
      intro hc
      simp [h] at hc
    · have h' : jsStartsWith e "." = false := by
        cases hb : jsStartsWith e "."
        · rfl
        · exact absurd hb h
      refine ⟨"." ++ e, by simp [getOutputFileName, h], ?_,
        fun hc => absurd hc h, fun _ => rfl⟩
      obtain ⟨l⟩ := e
      simp [jsStartsWith, List.isPrefixOf]
  · intro uo halg hext
    rcases halg with h | h <;> simp [resolveConfig, hext, h]
  · intro uo halg hext
    simp [resolveConfig, hext, halg]

/-- A 0-byte `dist/z.js` (stat size 0, empty content). -/
def zeroFile : FileInfo := ⟨"dist/z.js", 3, 0, []⟩

/-- A codec producing two bytes whatever the input (a gzip of empty
input is likewise non-empty). -/
def fnTwo : List Nat → Option (List Nat) := fun _ => some [7, 7]

/-- C5 (counterexample): with `threshold: 0` a 0-byte file is
processed, and its rendered percentage is `(100 * size) / 0`, the JS
division by zero — `Infinity`, not the claimed 100%. -/
theorem zero_oldsize_percentage_not_hundred :
    (closeBundle (resolveConfig uoThr0) fnTwo 5 [] [zeroFile]).reported.map
      ReportRow.percentage = [JSNum.posInf] ∧
    JSNum.posInf ≠ JSNum.fin 100 := by
  constructor
  · have h1 : (closeBundle (resolveConfig uoThr0) fnTwo 5 [] [zeroFile]).reported
        = reportRows [("dist/z.js", ⟨2, 0, "dist/z.js.gz"⟩)] := by
      rfl
    rw [h1]
    simp only [reportRows, List.map_cons, List.map_nil]
    norm_num [jsDiv]
  · decide

/-- C5 (amended): each report row's percentage is
`100 × compressedSize / originalSize` whenever the original size is
non-zero; the code applies the same division when the original size is
0, yielding `Infinity` (positive compressed size) or `NaN` (compressed
size 0), not 100%. -/
theorem percentage_formula_and_zero_division :
    (∀ (m : List (String × CompressEntry)) (p : String) (e : CompressEntry),
      (p, e) ∈ m → e.oldSize ≠ 0 →
      ∃ row ∈ reportRows m,
        row.percentage =
          JSNum.fin ((100 * (e.size : ℚ)) / (e.oldSize : ℚ))) ∧
    (∀ (m : List (String × CompressEntry)) (p : String) (e : CompressEntry),
      (p, e) ∈ m → e.oldSize = 0 → 0 < e.size →
      ∃ row ∈ reportRows m, row.percentage = JSNum.posInf) ∧
    (∀ (m : List (String × CompressEntry)) (p : String) (e : CompressEntry),
      (p, e) ∈ m → e.oldSize = 0 → e.size = 0 →
      ∃ row ∈ reportRows m, row.percentage = JSNum.nan) := by
  refine ⟨?_, ?_, ?_⟩
  · intro m p e hm h
    refine ⟨_, List.mem_map_of_mem _ hm, ?_⟩
    have hq : ((e.oldSize : ℚ)) ≠ 0 := Nat.cast_ne_zero.mpr h
    simp [jsDiv, hq]
  · intro m p e hm h0 hpos
    refine ⟨_, List.mem_map_of_mem _ hm, ?_⟩
    have hq : ((e.size : ℚ)) > 0 := by exact_mod_cast hpos
    have ha : (0 : ℚ) < 100 * (e.size : ℚ) := by positivity
    simp [jsDiv, h0, ha, ne_of_gt ha]
  · intro m p e hm h0 hs
    refine ⟨_, List.mem_map_of_mem _ hm, ?_⟩
    simp [jsDiv, h0, hs]

/-- Property lookup on a cons cell: the head wins when its key
matches. -/
theorem optLookup_cons (a : String × OptVal) (m : OptMap) (k : String) :
    optLookup (a :: m) k = if a.1 = k then some a.2 else optLookup m k := by
  by_cases h : a.1 = k <;> simp [optLookup, List.find?_cons, h]

/-- Lookup through the JS spread `{...base, ...user}`: the user's
binding when present, else the base's. -/
theorem optLookup_shallowMerge (user : OptMap) (k : String) :
    ∀ base : OptMap,
      optLookup (shallowMerge base user) k =
        (optLookup user k).or (optLookup base k) := by
  intro base
  induction base with
  | nil =>
      show optLookup user k = (optLookup user k).or (optLookup [] k)
      cases h : optLookup user k <;> simp [optLookup]
  | cons a bs ih =>
      by_cases hkeep : (optLookup user a.1).isNone
      · have hfil : shallowMerge (a :: bs) user =
            a :: shallowMerge bs user := by
          simp [shallowMerge, List.filter_cons, hkeep]
        rw [hfil, optLookup_cons]
        by_cases hak : a.1 = k
        · have hnone : optLookup user k = none := by
            rw [← hak]
            exact Option.isNone_iff_eq_none.mp hkeep
          rw [if_pos hak, hnone, optLookup_cons, if_pos hak]
          rfl
        · rw [if_neg hak, ih, optLookup_cons, if_neg hak]
      · have hfil : shallowMerge (a :: bs) user = shallowMerge bs user := by
          simp [shallowMerge, List.filter_cons, hkeep]
        obtain ⟨w, hw⟩ : ∃ w, optLookup user a.1 = some w := by
          cases h : optLookup user a.1 with
          | none => exact absurd (by simp [h]) hkeep
          | some w => exact ⟨w, rfl⟩
        rw [hfil, ih, optLookup_cons]
        by_cases hak : a.1 = k
        · rw [if_pos hak, ← hak, hw]
          rfl
        · rw [if_neg hak]

/-- C9: `getCompressionOptions` returns the algorithm's
maximum-compression baseline with the user's options shallow-merged on
top (user keys win); an algorithm outside the known four has an empty
baseline, so the user options pass through unchanged — the resolver is
a total function and never throws. -/
theorem compression_options_merge :
    (∀ alg user k v, optLookup user k = some v →
      optLookup (getCompressionOptions alg user) k = some v) ∧
    (∀ alg user k, optLookup user k = none →
      optLookup (getCompressionOptions alg user) k =
        optLookup (defaultOptions alg) k) ∧
    (∀ alg user,
      alg ∉ (["gzip", "deflate", "deflateRaw", "brotliCompress"] :
        List String) →
      getCompressionOptions alg user = user) ∧
    optLookup (getCompressionOptions "gzip" []) "level" =
      some (OptVal.num zBestCompression) ∧
    optLookup (getCompressionOptions "brotliCompress" []) "params" =
      some (OptVal.params [(brotliParamQuality, brotliMaxQuality),
                            (brotliParamMode, brotliModeText)]) := by
  refine ⟨?_, ?_, ?_, by decide, by decide⟩
  · intro alg user k v h
    rw [getCompressionOptions, optLookup_shallowMerge, h]
    rfl
  · intro alg user k h
    rw [getCompressionOptions, optLookup_shallowMerge, h]
    rfl
  · intro alg user h
    simp only [List.mem_cons, List.mem_singleton, not_or] at h
    obtain ⟨h1, h2, h3, h4⟩ := h
    have hd : defaultOptions alg = [] := by
      simp [defaultOptions, h1, h2, h3, h4]
    rw [getCompressionOptions, hd]
    rfl

/-- A skipped file leaves the worker with only the stat event and an
untouched cache. -/
theorem processFile_skip (cfg : Config) (fn : List Nat → Option (List Nat))
    (now : Nat) (cache : MtimeCache) (f : FileInfo)
    (h : f.mtimeMs ≤ cacheGetD cache f.path ∨ f.size < cfg.threshold) :
    processFile cfg fn now cache f = ⟨[Event.statF f.path], cache, none⟩ := by
  simp [processFile, h]

/-- A processed file's worker records `now` for the file's path. -/
theorem processFile_cache_not_skip (cfg : Config)
    (fn : List Nat → Option (List Nat)) (now : Nat) (cache : MtimeCache)
    (f : FileInfo)
    (h : ¬(f.mtimeMs ≤ cacheGetD cache f.path ∨ f.size < cfg.threshold)) :
    (processFile cfg fn now cache f).cache = cacheSet cache f.path now := by
  simp only [processFile, if_neg h]
  cases fn f.content <;> rfl

/-- Lookup after `cacheSet`. -/
theorem cacheGetD_cacheSet (c : MtimeCache) (kv : String) (v : Nat)
    (p : String) :
    cacheGetD (cacheSet c kv v) p = if kv = p then v else cacheGetD c p := by
  by_cases h : kv = p <;>
    simp [cacheSet, cacheGetD, cacheGet, List.find?_cons, h]

/-- After a run, each path's cached value is either the run's `now` or
whatever the starting cache held for it. -/
theorem runFiles_cacheGetD (cfg : Config) (fn : List Nat → Option (List Nat))
    (now : Nat) :
    ∀ (files : List FileInfo) (cache : MtimeCache) (p : String),
      cacheGetD ((runFiles cfg fn now cache files).cache) p = now ∨
      cacheGetD ((runFiles cfg fn now cache files).cache) p =
        cacheGetD cache p := by
  intro files
  induction files with
  | nil => intro cache p; exact Or.inr rfl
  | cons f fs ih =>
    intro cache p
    have hrw : (runFiles cfg fn now cache (f :: fs)).cache =
        (runFiles cfg fn now (processFile cfg fn now cache f).cache fs).cache :=
      rfl
    rw [hrw]
    rcases ih (processFile cfg fn now cache f).cache p with h | h
    · exact Or.inl h
    · rw [h]
      by_cases hskip :
          f.mtimeMs ≤ cacheGetD cache f.path ∨ f.size < cfg.threshold
      · rw [processFile_skip cfg fn now cache f hskip]
        exact Or.inr rfl
      · rw [processFile_cache_not_skip cfg fn now cache f hskip,
            cacheGetD_cacheSet]
        by_cases hp : f.path = p
        · rw [if_pos hp]; exact Or.inl rfl
        · rw [if_neg hp]; exact Or.inr rfl

/-- After a run whose `Date.now()` is at least every file's mtime, each
of the run's files is stale (or below the threshold) with respect to
the cache the run leaves behind. -/
theorem mtime_stale_after_run (cfg : Config)
    (fn : List Nat → Option (List Nat)) (now : Nat) :
    ∀ (files : List FileInfo) (cache : MtimeCache),
      (∀ f ∈ files, f.mtimeMs ≤ now) →
      ∀ f ∈ files,
        f.mtimeMs ≤ cacheGetD ((runFiles cfg fn now cache files).cache) f.path ∨
        f.size < cfg.threshold := by
  intro files
  induction files with
  | nil => intro cache _ f hf; cases hf
  | cons g fs ih =>
    intro cache H f hf
    have hrw : (runFiles cfg fn now cache (g :: fs)).cache =
        (runFiles cfg fn now (processFile cfg fn now cache g).cache fs).cache :=
      rfl
    rw [hrw]
    rcases List.mem_cons.mp hf with rfl | hmem
    · by_cases hskip :
          f.mtimeMs ≤ cacheGetD cache f.path ∨ f.size < cfg.threshold
      · rcases hskip with hm | hs
        · have hc : (processFile cfg fn now cache f).cache = cache := by
            rw [processFile_skip cfg fn now cache f (Or.inl hm)]
          rw [hc]
          rcases runFiles_cacheGetD cfg fn now fs cache f.path with h | h
          · exact Or.inl (by rw [h]; exact H f (List.mem_cons_self f fs))
          · exact Or.inl (by rw [h]; exact hm)
        · exact Or.inr hs
      · have hc : (processFile cfg fn now cache f).cache =
            cacheSet cache f.path now :=
          processFile_cache_not_skip cfg fn now cache f hskip
        rw [hc]
        rcases runFiles_cacheGetD cfg fn now fs (cacheSet cache f.path now)
            f.path with h | h
        · exact Or.inl (by rw [h]; exact H f (List.mem_cons_self f fs))
        · refine Or.inl ?_
          rw [h, cacheGetD_cacheSet, if_pos rfl]
          exact H f (List.mem_cons_self f fs)
    · exact ih (processFile cfg fn now cache g).cache
        (fun x hx => H x (List.mem_cons_of_mem g hx)) f hmem

/-- A run in which every file is stale or below the threshold does
nothing: every worker stats its file and stops, the cache is unchanged
and no result entry is produced. -/
theorem run_all_skipped (cfg : Config) (fn : List Nat → Option (List Nat))
    (now : Nat) :
    ∀ (files : List FileInfo) (cache : MtimeCache),
      (∀ f ∈ files,
        f.mtimeMs ≤ cacheGetD cache f.path ∨ f.size < cfg.threshold) →
      runFiles cfg fn now cache files =
        ⟨files.map (fun f => Event.statF f.path), cache, []⟩ := by
  intro files
  induction files with
  | nil => intro cache _; rfl
  | cons f fs ih =>
    intro cache H
    have hskip := H f (List.mem_cons_self f fs)
    simp only [runFiles, processFile_skip cfg fn now cache f hskip,
      ih cache (fun x hx => H x (List.mem_cons_of_mem f hx)), List.map_cons]
    rfl

/-- C8: a second run over the same files, starting from the cache the
first run left behind, is a no-op whenever the first run's `Date.now()`
was at least every file's mtime (the mtimes did not change between the
runs): every worker skips, so the second run writes no file, makes no
codec call, produces no result entry and leaves the cache unchanged. -/
theorem second_run_is_noop (cfg : Config) (fn : List Nat → Option (List Nat))
    (now1 now2 : Nat) (cache : MtimeCache) (files : List FileInfo)
    (H : ∀ f ∈ files, f.mtimeMs ≤ now1) :
    runFiles cfg fn now2 ((runFiles cfg fn now1 cache files).cache) files =
      ⟨files.map (fun f => Event.statF f.path),
       (runFiles cfg fn now1 cache files).cache, []⟩ ∧
    writesOf (runFiles cfg fn now2
        ((runFiles cfg fn now1 cache files).cache) files).events = [] ∧
    compressCallsOf (runFiles cfg fn now2
        ((runFiles cfg fn now1 cache files).cache) files).events = [] := by
  have h1 : ∀ f ∈ files,
      f.mtimeMs ≤ cacheGetD ((runFiles cfg fn now1 cache files).cache) f.path ∨
      f.size < cfg.threshold :=
    mtime_stale_after_run cfg fn now1 files cache H
  have h2 := run_all_skipped cfg fn now2 files
      ((runFiles cfg fn now1 cache files).cache) h1
  refine ⟨h2, ?_, ?_⟩ <;>
    rw [h2] <;>
      simp [writesOf, compressCallsOf, List.filterMap_map, Function.comp]

/-- Witness for C8: one 2000-byte file, first run at time 10, second at
time 20 — the second run writes nothing. -/
theorem second_run_is_noop_witness :
    (∀ f ∈ [bigFile], f.mtimeMs ≤ 10) ∧
    writesOf (runFiles cfgDefault fnOne 20
        ((runFiles cfgDefault fnOne 10 [] [bigFile]).cache) [bigFile]).events
      = [] :=
  ⟨by decide,
    (second_run_is_noop cfgDefault fnOne 10 20 [] [bigFile] (by decide)).2.1⟩

end VPC
